import Mathlib

/-!
Verification of the beefskills documentation tool-chain.

The definitions below are shallow embeddings of the three Python source
files (`scripts/audit_fancy_quotes.py`, `scripts/bump_plugin_version.py`,
`plugins/frontend-react/skills/frontend-react/build_agents.py`).
Documents are modelled as `List Char`; Python's `str.split`, `re.match`
prefixes, slices and index loops are translated into structural
recursions over character lists.  Loops of the source whose Python
termination argument is "the index only moves forward" are given an
explicit fuel argument bounded by the input length, so every definition
is executable by `decide`/`rfl`.
-/

namespace Beefskills

/-- The glyph constants of `audit_fancy_quotes.py`. -/
def STRAIGHT_DOUBLE : Char := '"'

/-- Straight apostrophe `'` (codepoint 39). -/
def STRAIGHT_APOSTROPHE : Char := Char.ofNat 39

/-- Fancy open double quote U+201C. -/
def FANCY_OPEN_DOUBLE : Char := '“'

/-- Fancy close double quote U+201D. -/
def FANCY_CLOSE_DOUBLE : Char := '”'

/-- Fancy apostrophe U+2019. -/
def FANCY_APOSTROPHE : Char := '’'

/-- ASCII whitespace, matching Python's `\s` / `str.strip()` on the
documents at hand (space, tab, newline, carriage return, vertical tab,
form feed). -/
def isPySpace (c : Char) : Bool :=
  c = ' ' || c = '\t' || c = '\n' || c = '\r' || c = Char.ofNat 11 || c = Char.ofNat 12

/-- Length of the leading backtick run of a character list. -/
def countTicks : List Char → Nat
  | [] => 0
  | c :: rest => if c = '`' then countTicks rest + 1 else 0

/-- `content.split("\n")` of Python: split into lines at every newline.
Always returns at least one (possibly empty) line. -/
def splitNL : List Char → List (List Char)
  | [] => [[]]
  | c :: rest =>
    if c = '\n' then [] :: splitNL rest
    else
      match splitNL rest with
      | [] => [[c]]
      | l :: ls => (c :: l) :: ls

/-- `"\n".join(lines)` of Python. -/
def joinNL : List (List Char) → List Char
  | [] => []
  | [l] => l
  | l :: ls => l ++ '\n' :: joinNL ls

/-- `s.startswith(pat)` of Python. -/
def startsWithSeq : List Char → List Char → Bool
  | [], _ => true
  | _ :: _, [] => false
  | p :: ps, c :: cs => p = c && startsWithSeq ps cs

/-- `pat in s` of Python (substring containment). -/
def containsSeq (pat : List Char) : List Char → Bool
  | [] => startsWithSeq pat []
  | c :: cs => startsWithSeq pat (c :: cs) || containsSeq pat cs

/-- `s.strip()` of Python: remove leading and trailing whitespace. -/
def pyStrip (l : List Char) : List Char :=
  ((l.dropWhile isPySpace).reverse.dropWhile isPySpace).reverse

/-- Fence-opening test of the source (`re.match(r"^\s*```", line)`):
after optional leading whitespace, a run of at least three backticks. -/
def openFence (line : List Char) : Bool :=
  3 ≤ countTicks (line.dropWhile isPySpace)

/-- The captured fence marker length (`re.match(r"^\s*(`+)", line)`):
the length of the backtick run after the leading whitespace. -/
def fenceLen (line : List Char) : Nat :=
  countTicks (line.dropWhile isPySpace)

/-- Fence-closing test of the source:
`line.strip().startswith(fence) and len(line.strip()) >= len(fence)`
where `fence` is a run of `n` backticks. -/
def closeFence (n : Nat) (line : List Char) : Bool :=
  startsWithSeq (List.replicate n '`') (pyStrip line) && n ≤ (pyStrip line).length

/-- Inner search loop of `iter_prose_offsets` (and of the identical
line-local loop inside `prose_offset_set`): starting just past an
opening run of `need` backticks at absolute position `pos`, scan
forward for a backtick run of length at least `need`.  On success
return the absolute position just past the closing run together with
the remaining characters; if no sufficient run exists before the end
of the text, return `none` (the source then sets `i` to the end, i.e.
the remainder is swallowed).  `fuel` bounds the number of steps; it is
always called with more fuel than characters, so it never runs out. -/
def skipCloseF : Nat → Nat → Nat → List Char → Option (Nat × List Char)
  | 0, _, _, _ => none
  | _ + 1, _, _, [] => none
  | fuel + 1, need, pos, c :: rest =>
    if c = '`' then
      let r := countTicks rest + 1
      if need ≤ r then some (pos + r, rest.drop (r - 1))
      else skipCloseF fuel need (pos + r) (rest.drop (r - 1))
    else skipCloseF fuel need (pos + 1) rest

/-- `skipCloseF` with sufficient fuel. -/
def skipClose (need pos : Nat) (s : List Char) : Option (Nat × List Char) :=
  skipCloseF (s.length + 1) need pos s

/-- Main loop of `iter_prose_offsets`: walk the text, yielding
`(offset, char)` for every character outside inline backtick spans.
On a backtick run, search for a closing run of at least the same
length; if none exists the rest of the text is skipped.  `fuel` bounds
the recursion and is always supplied larger than the text length. -/
def scanProseF : Nat → Nat → List Char → List (Nat × Char)
  | 0, _, _ => []
  | _ + 1, _, [] => []
  | fuel + 1, i, c :: rest =>
    if c = '`' then
      let r := countTicks rest + 1
      match skipClose r (i + r) (rest.drop (r - 1)) with
      | some (i2, rest2) => scanProseF fuel i2 rest2
      | none => []
    else (i, c) :: scanProseF fuel (i + 1) rest

/-- `scanProseF` with sufficient fuel, started at offset `i`. -/
def scanProse (i : Nat) (s : List Char) : List (Nat × Char) :=
  scanProseF (s.length + 1) i s

/-- `iter_prose_offsets` of the source. -/
def iter_prose_offsets (p : List Char) : List (Nat × Char) :=
  scanProse 0 p

/-- `find_straight_quotes_in_prose` of the source. -/
def find_straight_quotes_in_prose (p : List Char) : List (Nat × Char) :=
  (iter_prose_offsets p).filter
    (fun x => x.2 = STRAIGHT_DOUBLE || x.2 = STRAIGHT_APOSTROPHE)

/-- Line loop of `get_prose_content`: blank every fenced line (opening
marker, interior and closing marker alike), keep prose lines. -/
def blankFences : List (List Char) → Option Nat → List (List Char)
  | [], _ => []
  | line :: rest, none =>
    if openFence line then [] :: blankFences rest (some (fenceLen line))
    else line :: blankFences rest none
  | line :: rest, some n =>
    if closeFence n line then [] :: blankFences rest none
    else [] :: blankFences rest (some n)

/-- `get_prose_content` of the source. -/
def get_prose_content (content : List Char) : List Char :=
  joinNL (blankFences (splitNL content) none)

/-- Offsets and characters of the fancy glyphs of one fenced line,
with `pos` the absolute offset of the line start. -/
def fancyInLine (pos : Nat) : Nat → List Char → List (Nat × Char)
  | _, [] => []
  | j, c :: rest =>
    if c = FANCY_OPEN_DOUBLE || c = FANCY_CLOSE_DOUBLE || c = FANCY_APOSTROPHE then
      (pos + j, c) :: fancyInLine pos (j + 1) rest
    else fancyInLine pos (j + 1) rest

/-- Line loop of `find_fancy_in_code`. -/
def fancyLines : List (List Char) → Nat → Option Nat → List (Nat × Char)
  | [], _, _ => []
  | line :: rest, pos, none =>
    if openFence line then fancyLines rest (pos + line.length + 1) (some (fenceLen line))
    else fancyLines rest (pos + line.length + 1) none
  | line :: rest, pos, some n =>
    if closeFence n line then fancyLines rest (pos + line.length + 1) none
    else fancyInLine pos 0 line ++ fancyLines rest (pos + line.length + 1) (some n)

/-- `find_fancy_in_code` of the source. -/
def find_fancy_in_code (content : List Char) : List (Nat × Char) :=
  fancyLines (splitNL content) 0 none

/-- Index of the last newline of a character list
(`content.rfind("\n")` restricted to a prefix by the caller). -/
def rfindNL : List Char → Option Nat
  | [] => none
  | c :: rest =>
    match rfindNL rest with
    | some r => some (r + 1)
    | none => if c = '\n' then some 0 else none

/-- `line_and_column` of the source. -/
def line_and_column (content : List Char) (offset : Nat) : Nat × Nat :=
  let before := content.take offset
  let line := before.count '\n' + 1
  let col :=
    match rfindNL before with
    | some r => offset - r
    | none => offset + 1
  (line, col)

/-- Offsets of one prose line that belong to prose, i.e. are outside
inline backtick spans: the inner `while` of `prose_offset_set` is the
same scanning loop as `iter_prose_offsets`, applied to a single line. -/
def lineProseOffsets (line : List Char) : List Nat :=
  (scanProse 0 line).map Prod.fst

/-- Line loop of `prose_offset_set`, threading the absolute position
and the fence state. -/
def proseLines : List (List Char) → Nat → Option Nat → List Nat
  | [], _, _ => []
  | line :: rest, pos, none =>
    if openFence line then proseLines rest (pos + line.length + 1) (some (fenceLen line))
    else
      (lineProseOffsets line).map (fun j => pos + j)
        ++ proseLines rest (pos + line.length + 1) none
  | line :: rest, pos, some n =>
    if closeFence n line then proseLines rest (pos + line.length + 1) none
    else proseLines rest (pos + line.length + 1) (some n)

/-- `prose_offset_set` of the source (as a list of offsets; the offsets
produced are pairwise distinct, so list membership is set membership). -/
def prose_offset_set (content : List Char) : List Nat :=
  proseLines (splitNL content) 0 none

/-- Membership in a list of natural numbers, as a boolean. -/
def natMem (i : Nat) : List Nat → Bool
  | [] => false
  | j :: js => if i = j then true else natMem i js

/-- Character class of `[\s\-]` in the avoid-line regular expression. -/
def isSpaceDash (c : Char) : Bool :=
  isPySpace c || c = '-'

/-- Drop a single optional leading asterisk (the `\*?` of the regular
expression; since `*` matches neither `[\s\-]` nor a letter, the
regular expression engine's backtracking never revisits this choice). -/
def dropStar : List Char → List Char
  | [] => []
  | c :: t => if c = '*' then t else c :: t

/-- `re.match(r"^[\s\-]*\*?Avoid\*?:", line)` of the source, as a
boolean: optional whitespace/dashes, an optional asterisk, the literal
word `Avoid`, an optional asterisk, then a colon. -/
def avoidRegexMatch (line : List Char) : Bool :=
  startsWithSeq "Avoid".toList (dropStar (line.dropWhile isSpaceDash))
    && startsWithSeq ":".toList
      (dropStar ((dropStar (line.dropWhile isSpaceDash)).drop 5))

/-- The literal substring `"- Avoid:"` probed in the first 20 characters
of the line. -/
def avoidPat : List Char := "- Avoid:".toList

/-- The full avoid-line test of `fix_prose_quotes`:
`re.match(r"^[\s\-]*\*?Avoid\*?:", line) or "- Avoid:" in line[:20]`. -/
def avoidLineMatch (line : List Char) : Bool :=
  avoidRegexMatch line || containsSeq avoidPat (line.take 20)

/-- `content.rfind("\n", 0, i) + 1` of the source: start offset of the
line containing offset `i`. -/
def lineStartAt (content : List Char) (i : Nat) : Nat :=
  match rfindNL (content.take i) with
  | some r => r + 1
  | none => 0

/-- First newline at or after `j`, scanning `rest`. -/
def findNLAux : Nat → List Char → Option Nat
  | _, [] => none
  | j, c :: rest => if c = '\n' then some j else findNLAux (j + 1) rest

/-- `content.find("\n", i)` of the source, with the source's fallback to
`len(content)` when absent: end offset of the line containing `i`. -/
def lineEndAt (content : List Char) (i : Nat) : Nat :=
  match findNLAux i (content.drop i) with
  | some e => e
  | none => content.length

/-- `content[line_start:line_end]` of the source: the line containing
offset `i`. -/
def lineAt (content : List Char) (i : Nat) : List Char :=
  (content.take (lineEndAt content i)).drop (lineStartAt content i)

/-- Whether the line containing offset `i` is an avoid-example line. -/
def avoidAt (content : List Char) (i : Nat) : Bool :=
  avoidLineMatch (lineAt content i)

/-- The glyph appended for the `cnt`-th replaced double quote
(`FANCY_CLOSE_DOUBLE if double_quote_count % 2 == 0 else
FANCY_OPEN_DOUBLE`). -/
def fancyFor (cnt : Nat) : Char :=
  if cnt % 2 = 0 then FANCY_CLOSE_DOUBLE else FANCY_OPEN_DOUBLE

/-- Main loop of `fix_prose_quotes`: `i` is the current offset, `cnt`
the running double-quote counter, the list argument the remaining
characters; `pr` is prose-offset membership and `av` the avoid-line
test, both precomputed from the full document as in the source. -/
def fixFrom (pr av : Nat → Bool) (skip : Bool) : Nat → Nat → List Char → List Char
  | _, _, [] => []
  | i, cnt, c :: rest =>
    if pr i = false then c :: fixFrom pr av skip (i + 1) cnt rest
    else if c = STRAIGHT_DOUBLE then
      if skip && av i then c :: fixFrom pr av skip (i + 1) cnt rest
      else fancyFor (cnt + 1) :: fixFrom pr av skip (i + 1) (cnt + 1) rest
    else if c = STRAIGHT_APOSTROPHE then
      if skip && av i then c :: fixFrom pr av skip (i + 1) cnt rest
      else FANCY_APOSTROPHE :: fixFrom pr av skip (i + 1) cnt rest
    else c :: fixFrom pr av skip (i + 1) cnt rest

/-- `fix_prose_quotes` of the source. -/
def fix_prose_quotes (content : List Char) (skip_avoid_examples : Bool) : List Char :=
  fixFrom (fun i => natMem i (prose_offset_set content)) (avoidAt content)
    skip_avoid_examples 0 0 content

/-- Number of double quotes actually replaced among the first `k`
characters of the remaining text, when scanning starts at offset `i`. -/
def replCnt (pr av : Nat → Bool) (skip : Bool) : Nat → List Char → Nat → Nat
  | _, _, 0 => 0
  | _, [], _ + 1 => 0
  | i, c :: rest, k + 1 =>
    (if pr i && c = STRAIGHT_DOUBLE && !(skip && av i) then 1 else 0)
      + replCnt pr av skip (i + 1) rest k

/-- Offsets of the double quotes that `fixFrom` actually replaces. -/
def replacedDoubleOffsets (pr av : Nat → Bool) (skip : Bool) : Nat → List Char → List Nat
  | _, [] => []
  | i, c :: rest =>
    if pr i && c = STRAIGHT_DOUBLE && !(skip && av i) then
      i :: replacedDoubleOffsets pr av skip (i + 1) rest
    else replacedDoubleOffsets pr av skip (i + 1) rest

/-- Offsets of the double quotes that `fix_prose_quotes` replaces, in
document order. -/
def replaced_doubles (content : List Char) (skip : Bool) : List Nat :=
  replacedDoubleOffsets (fun i => natMem i (prose_offset_set content)) (avoidAt content)
    skip 0 content

/-! ### `build_agents.py`: the document assembler -/

/-- `SECTION_ORDER` of `build_agents.py`: (prefix, section title, impact). -/
def SECTION_ORDER : List (List Char × List Char × List Char) :=
  [("bundle".toList, "Bundle Size Optimization".toList, "CRITICAL".toList),
   ("client".toList, "Client-Side Data Fetching".toList, "MEDIUM-HIGH".toList),
   ("rerender".toList, "Re-render Optimization".toList, "MEDIUM".toList),
   ("rendering".toList, "Rendering Performance".toList, "MEDIUM".toList),
   ("advanced".toList, "Advanced Patterns".toList, "LOW".toList)]

/-- Index of the last occurrence of `c` (`name.rfind(c)` of Python). -/
def rfindChar (c : Char) : List Char → Option Nat
  | [] => none
  | d :: rest =>
    match rfindChar c rest with
    | some r => some (r + 1)
    | none => if d = c then some 0 else none

/-- `Path(name).stem` of Python: the file name with its final extension
removed (an extension needs a dot at a position that is neither the
first nor past the last character). -/
def stemOf (name : List Char) : List Char :=
  match rfindChar '.' name with
  | some i => if 0 < i && i + 1 < name.length then name.take i else name
  | none => name

/-- `Path(name).suffix` of Python. -/
def suffixOf (name : List Char) : List Char :=
  match rfindChar '.' name with
  | some i => if 0 < i && i + 1 < name.length then name.drop i else []
  | none => []

/-- The filter of the assembler's directory loop: keep `.md` files whose
name does not start with an underscore. -/
def validRuleFile (name : List Char) : Bool :=
  suffixOf name = ".md".toList && !startsWithSeq "_".toList name

/-- `name.split("-", 1)[0]` of the source: the group prefix of a stem. -/
def stemPrefixOf (stem : List Char) : List Char :=
  stem.takeWhile (fun c => !(c = '-'))

/-- Lexicographic comparison of file names (Python string `<=`,
comparing code points). -/
def lexLe : List Char → List Char → Bool
  | [], _ => true
  | _ :: _, [] => false
  | a :: as, b :: bs => if a = b then lexLe as bs else decide (a < b)

/-- Stable insertion of a file into a name-sorted list. -/
def insertByName (f : List Char × List Char) :
    List (List Char × List Char) → List (List Char × List Char)
  | [] => [f]
  | g :: gs => if lexLe f.1 g.1 then f :: g :: gs else g :: insertByName f gs

/-- `by_prefix[prefix].sort(key=lambda p: p.name)` of the source: a
stable sort by file name. -/
def sortByName : List (List Char × List Char) → List (List Char × List Char)
  | [] => []
  | f :: fs => insertByName f (sortByName fs)

/-- The group of rule fragments for one taxonomy prefix: the valid
`.md` files whose stem contains a dash and starts with the prefix,
sorted by name.  A file is a `(name, content)` pair. -/
def groupFiles (files : List (List Char × List Char)) (pfx : List Char) :
    List (List Char × List Char) :=
  sortByName (files.filter
    (fun f => validRuleFile f.1 && (stemOf f.1).contains '-'
      && stemPrefixOf (stemOf f.1) = pfx))

/-- First index at which `pat` occurs as a prefix (`str.find` of a
substring). -/
def findSeqIdx (pat : List Char) : List Char → Option Nat
  | [] => if startsWithSeq pat [] then some 0 else none
  | c :: cs =>
    if startsWithSeq pat (c :: cs) then some 0
    else (findSeqIdx pat cs).map (· + 1)

/-- Title loop of `strip_frontmatter`: the first `## ` line (while the
title is still empty) becomes the stripped title and is removed; all
other lines are kept. -/
def extractTitleLines (title : List Char) :
    List (List Char) → List Char × List (List Char)
  | [] => (title, [])
  | l :: rest =>
    if startsWithSeq "## ".toList l && title = [] then
      extractTitleLines (pyStrip (l.drop 3)) rest
    else
      let tr := extractTitleLines title rest
      (tr.1, l :: tr.2)

/-- `strip_frontmatter` of `build_agents.py`: drop a leading
`---`-delimited frontmatter (via `content.split("---", 2)`), extract
the first `## ` heading as the title, and return the stripped rest. -/
def strip_frontmatter (content : List Char) : List Char × List Char :=
  let body :=
    if startsWithSeq "---".toList content then
      match findSeqIdx "---".toList (content.drop 3) with
      | some j => ((content.drop 3).drop (j + 3)).dropWhile (fun c => c = '\n')
      | none => content
    else content
  let tr := extractTitleLines [] (splitNL body)
  (tr.1, pyStrip (joinNL tr.2))

/-- Decimal digits of a natural number; the fuel argument (instantiated
with the number itself) makes the division recursion structural. -/
def natDigitsAux : Nat → Nat → List Char → List Char
  | 0, _, acc => acc
  | fuel + 1, n, acc =>
    if n = 0 then acc
    else natDigitsAux fuel (n / 10) (Nat.digitChar (n % 10) :: acc)

/-- Decimal representation of a natural number (for the f-strings of
the source). -/
def natDigits (n : Nat) : List Char :=
  if n = 0 then ['0'] else natDigitsAux n n []

/-- `{sec_num}-{section_title.lower().replace(' ', '-')}`: the anchor of
a section heading. -/
def anchorOf (secNum : Nat) (title : List Char) : List Char :=
  natDigits secNum ++ '-' :: (title.map Char.toLower).map (fun c => if c = ' ' then '-' else c)

/-- The table-of-contents heading line of a section. -/
def tocHeaderLine (secNum : Nat) (title impact : List Char) : List Char :=
  natDigits secNum ++ ". [".toList ++ title ++ "](#".toList ++ anchorOf secNum title
    ++ ") — **".toList ++ impact ++ "**".toList

/-- A table-of-contents sub-entry `   - {sec}.{r} {title}`. -/
def tocSubLine (secNum rNum : Nat) (title : List Char) : List Char :=
  "   - ".toList ++ natDigits secNum ++ '.' :: natDigits rNum ++ ' ' :: title

/-- `enumerate(files, 1)` of the source, applied to a line-producing
function. -/
def numberFrom {α β : Type} (f : Nat → α → β) : Nat → List α → List β
  | _, [] => []
  | k, a :: as => f k a :: numberFrom f (k + 1) as

/-- Table-of-contents block of one taxonomy section: nothing when the
group is empty, otherwise the heading line, one sub-entry per fragment
and a trailing blank line. -/
def tocSection (group : List (List Char × List Char)) (secNum : Nat)
    (title impact : List Char) : List (List Char) :=
  if group = [] then []
  else
    tocHeaderLine secNum title impact
      :: numberFrom (fun r f => tocSubLine secNum r (strip_frontmatter f.2).1) 1 group
      ++ [[]]

/-- Body block of one taxonomy section: heading, blank, then per
fragment a `### {sec}.{r} {title}` heading, blank, the fragment body
and a blank, with a final blank line. -/
def bodySection (group : List (List Char × List Char)) (secNum : Nat)
    (title : List Char) : List (List Char) :=
  if group = [] then []
  else
    ("## ".toList ++ natDigits secNum ++ ". ".toList ++ title)
      :: [] :: (numberFrom (fun r f =>
            let tb := strip_frontmatter f.2
            [("### ".toList ++ natDigits secNum ++ '.' :: natDigits r ++ ' ' :: tb.1),
             [], tb.2, []]) 1 group).flatten
      ++ [[]]

/-- The fixed header lines of the assembled document (lines 53–82 of
the source). -/
def headerLines : List (List Char) :=
  ["# React Best Practices".toList,
   [],
   "**Version 1.0.0**".toList,
   "React".toList,
   [],
   "> **Note:**".toList,
   "> This document is for agents and LLMs when maintaining, generating, or refactoring".toList,
   "> React codebases. For framework-agnostic patterns, see the `frontend-general` skill.".toList,
   [],
   "---".toList,
   [],
   "## Abstract".toList,
   [],
   "React-specific performance and best-practices guide.".toList,
   "Rules across 5 categories: bundle optimization with React.lazy/Suspense, client-side".toList,
   "data fetching with SWR, re-render optimization, React rendering patterns, and advanced".toList,
   "hook patterns. Each rule includes incorrect vs. correct examples.".toList,
   [],
   "---".toList,
   [],
   "## Table of Contents".toList,
   []]

/-- The `out` list of `build_agents.py`'s `main`, for a given list of
`(file name, file content)` pairs found in the rules directory. -/
def buildLines (files : List (List Char × List Char)) : List (List Char) :=
  headerLines
    ++ (numberFrom (fun sec e => tocSection (groupFiles files e.1) sec e.2.1 e.2.2)
          1 SECTION_ORDER).flatten
    ++ ["---".toList, []]
    ++ (numberFrom (fun sec e => bodySection (groupFiles files e.1) sec e.2.1)
          1 SECTION_ORDER).flatten

/-- The text written to `AGENTS.md` (`"\n".join(out)`). -/
def build_agents_output (files : List (List Char × List Char)) : List Char :=
  joinNL (buildLines files)

/-! ### `bump_plugin_version.py` -/

/-- The fields of `plugin.json` that the script touches (all other
fields are carried through unchanged by `json.loads`/`dumps` and play
no role in the claims). -/
structure PluginManifest where
  version : Option (List Char)
  deriving DecidableEq

/-- One entry of the `plugins` array of `marketplace.json`. -/
structure MarketEntry where
  name : Option (List Char)
  version : Option (List Char)
  deriving DecidableEq

/-- `marketplace.json`: its `plugins` array. -/
structure Marketplace where
  plugins : List MarketEntry
  deriving DecidableEq

/-- The observable outcome of one run of `bump_plugin_version.py`:
its exit status, whether a `Not found:` diagnostic was printed, whether
the missing-entry warning was printed, and the rewritten manifests
(`none` when the script exited before writing). -/
structure BumpResult where
  exitCode : Nat
  notFoundMsg : Bool
  warnedMissingEntry : Bool
  pluginOut : Option PluginManifest
  marketOut : Option Marketplace
  deriving DecidableEq

/-- The `for p in data.get("plugins", []): ... break / else: warn` loop:
update the first entry whose `name` equals the target, and report
whether one was found. -/
def updateEntries (nm nv : List Char) : List MarketEntry → List MarketEntry × Bool
  | [] => ([], false)
  | e :: es =>
    if e.name = some nm then ({ e with version := some nv } :: es, true)
    else
      let r := updateEntries nm nv es
      (e :: r.1, r.2)

/-- `main` of `bump_plugin_version.py`, with the file system abstracted
to the two optional JSON documents it reads (`none` models a missing
file). -/
def bump_main (pluginJson : Option PluginManifest) (marketplaceJson : Option Marketplace)
    (nm nv : List Char) : BumpResult :=
  match pluginJson with
  | none => ⟨1, true, false, none, none⟩
  | some pj =>
    match marketplaceJson with
    | none => ⟨1, true, false, none, none⟩
    | some mp =>
      let pj2 : PluginManifest := { pj with version := some nv }
      let upd := updateEntries nm nv mp.plugins
      ⟨0, false, !upd.2, some pj2, some ⟨upd.1⟩⟩

/-! ### Pointwise characterization of the rewriter -/

/-- The character that the rewriter emits for input character `c` at
offset `pos` when the running double-quote counter, counting this
replacement, is `n`. -/
def fixChar (pr av : Nat → Bool) (skip : Bool) (pos n : Nat) (c : Char) : Char :=
  if pr pos = false then c
  else if c = STRAIGHT_DOUBLE then
    if skip && av pos then c else fancyFor n
  else if c = STRAIGHT_APOSTROPHE then
    if skip && av pos then c else FANCY_APOSTROPHE
  else c

theorem fixFrom_length (pr av : Nat → Bool) (skip : Bool) :
    ∀ (rest : List Char) (i cnt : Nat),
      (fixFrom pr av skip i cnt rest).length = rest.length := by
  intro rest
  induction rest with
  | nil => intro i cnt; rfl
  | cons c cs ih =>
    intro i cnt
    simp only [fixFrom]
    split_ifs <;> simp [ih]

theorem fixFrom_getElem? (pr av : Nat → Bool) (skip : Bool) :
    ∀ (rest : List Char) (i cnt k : Nat),
      (fixFrom pr av skip i cnt rest)[k]? =
        (rest[k]?).map
          (fixChar pr av skip (i + k) (cnt + replCnt pr av skip i rest k + 1)) := by
  intro rest
  induction rest with
  | nil => intro i cnt k; simp [fixFrom]
  | cons c cs ih =>
    intro i cnt k
    cases k with
    | zero =>
      have hne : ¬ (STRAIGHT_APOSTROPHE = STRAIGHT_DOUBLE) := by decide
      simp only [replCnt, Nat.add_zero, List.getElem?_cons_zero, Option.map_some]
      by_cases h1 : pr i = false
      · simp [fixFrom, fixChar, h1]
      · by_cases h2 : c = STRAIGHT_DOUBLE
        · by_cases h3 : (skip && av i) = true
          · simp [fixFrom, fixChar, h1, h2, h3]
          · have h3' : (skip && av i) = false := by simp_all
            simp [fixFrom, fixChar, h1, h2, h3']
        · by_cases h4 : c = STRAIGHT_APOSTROPHE
          · by_cases h5 : (skip && av i) = true
            · simp [fixFrom, fixChar, h1, h2, h4, h5, hne]
            · have h5' : (skip && av i) = false := by simp_all
              simp [fixFrom, fixChar, h1, h2, h4, h5', hne]
          · simp [fixFrom, fixChar, h1, h2, h4]
    | succ k =>
      have harith : i + 1 + k = i + (k + 1) := by omega
      have hsucc : ∀ (x : Char) (cnt2 : Nat),
          (x :: fixFrom pr av skip (i + 1) cnt2 cs)[k + 1]? =
            Option.map
              (fixChar pr av skip (i + (k + 1))
                (cnt2 + replCnt pr av skip (i + 1) cs k + 1)) cs[k]? := by
        intro x cnt2
        rw [List.getElem?_cons_succ, ih (i + 1) cnt2 k, harith]
      by_cases h1 : pr i = false
      · have hd : (pr i && decide (c = STRAIGHT_DOUBLE) && !(skip && av i)) = false := by
          simp only [h1, Bool.false_and]
        have hdel :
            (if (pr i && decide (c = STRAIGHT_DOUBLE) && !(skip && av i)) = true
              then (1 : Nat) else 0) = 0 := by rw [hd]; rfl
        simp only [replCnt, hdel, Nat.zero_add]
        simp only [fixFrom, if_pos h1]
        rw [hsucc, List.getElem?_cons_succ]
      · by_cases h2 : c = STRAIGHT_DOUBLE
        · by_cases h3 : (skip && av i) = true
          · have hd : (pr i && decide (c = STRAIGHT_DOUBLE) && !(skip && av i)) = false := by
              simp only [h3, Bool.not_true, Bool.and_false]
            have hdel :
                (if (pr i && decide (c = STRAIGHT_DOUBLE) && !(skip && av i)) = true
                  then (1 : Nat) else 0) = 0 := by rw [hd]; rfl
            simp only [replCnt, hdel, Nat.zero_add]
            simp only [fixFrom, if_neg h1, if_pos h2, if_pos h3]
            rw [hsucc, List.getElem?_cons_succ]
          · have hp : pr i = true := by revert h1; cases pr i <;> simp
            have h3' : (skip && av i) = false := by revert h3; cases (skip && av i) <;> simp
            have hd : (pr i && decide (c = STRAIGHT_DOUBLE) && !(skip && av i)) = true := by
              simp [hp, h2, h3']
            have hdel :
                (if (pr i && decide (c = STRAIGHT_DOUBLE) && !(skip && av i)) = true
                  then (1 : Nat) else 0) = 1 := by rw [hd]; rfl
            simp only [replCnt, hdel]
            simp only [fixFrom, if_neg h1, if_pos h2, if_neg h3]
            rw [hsucc, List.getElem?_cons_succ]
            have : cnt + 1 + replCnt pr av skip (i + 1) cs k + 1
                = cnt + (1 + replCnt pr av skip (i + 1) cs k) + 1 := by omega
            rw [this]
        · have hdec : decide (c = STRAIGHT_DOUBLE) = false := decide_eq_false h2
          have hd : (pr i && decide (c = STRAIGHT_DOUBLE) && !(skip && av i)) = false := by
            simp only [hdec, Bool.and_false, Bool.false_and]
          have hdel :
              (if (pr i && decide (c = STRAIGHT_DOUBLE) && !(skip && av i)) = true
                then (1 : Nat) else 0) = 0 := by rw [hd]; rfl
          by_cases h4 : c = STRAIGHT_APOSTROPHE
          · by_cases h5 : (skip && av i) = true
            · simp only [replCnt, hdel, Nat.zero_add]
              simp only [fixFrom, if_neg h1, if_neg h2, if_pos h4, if_pos h5]
              rw [hsucc, List.getElem?_cons_succ]
            · simp only [replCnt, hdel, Nat.zero_add]
              simp only [fixFrom, if_neg h1, if_neg h2, if_pos h4, if_neg h5]
              rw [hsucc, List.getElem?_cons_succ]
          · simp only [replCnt, hdel, Nat.zero_add]
            simp only [fixFrom, if_neg h1, if_neg h2, if_neg h4]
            rw [hsucc, List.getElem?_cons_succ]

/-! ### The rewrite relation and its congruence properties

`Rrel x y` holds when the rewriter may turn input character `x` into
output character `y`.  Every structural function of the scanner
(`splitNL`, fence detection, the backtick scan, the avoid-line test)
is invariant under `Rrel`-related inputs, which is what makes a second
rewrite pass see the same prose/code partition as the first. -/

/-- Pointwise input/output relation of the rewriter. -/
def Rrel (x y : Char) : Prop :=
  y = x
    ∨ (x = STRAIGHT_DOUBLE ∧ (y = FANCY_OPEN_DOUBLE ∨ y = FANCY_CLOSE_DOUBLE))
    ∨ (x = STRAIGHT_APOSTROPHE ∧ y = FANCY_APOSTROPHE)

theorem Rrel_fixChar (pr av : Nat → Bool) (skip : Bool) (pos n : Nat) (c : Char) :
    Rrel c (fixChar pr av skip pos n c) := by
  unfold Rrel fixChar fancyFor
  split_ifs <;> simp_all

theorem fixFrom_forall₂ (pr av : Nat → Bool) (skip : Bool) :
    ∀ (rest : List Char) (i cnt : Nat),
      List.Forall₂ Rrel rest (fixFrom pr av skip i cnt rest) := by
  intro rest
  induction rest with
  | nil => intro i cnt; exact List.Forall₂.nil
  | cons c cs ih =>
    intro i cnt
    have hch : ∀ (n : Nat), Rrel c (fixChar pr av skip i n c) := fun n =>
      Rrel_fixChar pr av skip i n c
    simp only [fixFrom]
    split_ifs with h1 h2 h3 h4 h5
    · exact List.Forall₂.cons (Or.inl rfl) (ih (i + 1) cnt)
    · exact List.Forall₂.cons (Or.inl rfl) (ih (i + 1) cnt)
    · refine List.Forall₂.cons ?_ (ih (i + 1) (cnt + 1))
      unfold Rrel fancyFor
      split_ifs <;> simp [h2]
    · exact List.Forall₂.cons (Or.inl rfl) (ih (i + 1) cnt)
    · exact List.Forall₂.cons (Or.inr (Or.inr ⟨h4, rfl⟩)) (ih (i + 1) cnt)
    · exact List.Forall₂.cons (Or.inl rfl) (ih (i + 1) cnt)

/-- The five characters that the rewriter reads or writes specially. -/
def specialFree (c : Char) : Bool :=
  !(c = STRAIGHT_DOUBLE || c = STRAIGHT_APOSTROPHE || c = FANCY_OPEN_DOUBLE
    || c = FANCY_CLOSE_DOUBLE || c = FANCY_APOSTROPHE)

theorem Rrel_eq_iff {x y : Char} (h : Rrel x y) {c : Char}
    (hc : specialFree c = true) : (x = c) ↔ (y = c) := by
  simp only [specialFree, Bool.not_eq_true', Bool.or_eq_false_iff, decide_eq_false_iff_not]
    at hc
  obtain ⟨⟨⟨⟨hc1, hc2⟩, hc3⟩, hc4⟩, hc5⟩ := hc
  rcases h with h | ⟨hx, hy | hy⟩ | ⟨hx, hy⟩ <;> subst_vars <;>
    constructor <;> intro h <;> simp_all

theorem Rrel_tick {x y : Char} (h : Rrel x y) : (x = '`') ↔ (y = '`') :=
  Rrel_eq_iff h (by decide)

theorem Rrel_nl {x y : Char} (h : Rrel x y) : (x = '\n') ↔ (y = '\n') :=
  Rrel_eq_iff h (by decide)

theorem Rrel_isPySpace {x y : Char} (h : Rrel x y) : isPySpace x = isPySpace y := by
  rcases h with h | ⟨hx, hy | hy⟩ | ⟨hx, hy⟩ <;> subst_vars <;> rfl

theorem Rrel_isSpaceDash {x y : Char} (h : Rrel x y) : isSpaceDash x = isSpaceDash y := by
  rcases h with h | ⟨hx, hy | hy⟩ | ⟨hx, hy⟩ <;> subst_vars <;> rfl

theorem countTicks_congr : ∀ {a b : List Char},
    List.Forall₂ Rrel a b → countTicks a = countTicks b := by
  intro a
  induction a with
  | nil => intro b h; cases h; rfl
  | cons x xs ih =>
    intro b h
    cases h with
    | cons hxy hrest =>
      simp only [countTicks]
      by_cases hx : x = '`'
      · rw [if_pos hx, if_pos ((Rrel_tick hxy).mp hx), ih hrest]
      · rw [if_neg hx, if_neg (fun hy => hx ((Rrel_tick hxy).mpr hy))]

theorem dropWhile_congr {p : Char → Bool}
    (hp : ∀ x y, Rrel x y → p x = p y) :
    ∀ {a b : List Char}, List.Forall₂ Rrel a b →
      List.Forall₂ Rrel (a.dropWhile p) (b.dropWhile p) := by
  intro a
  induction a with
  | nil => intro b h; cases h; exact List.Forall₂.nil
  | cons x xs ih =>
    intro b h
    cases h with
    | cons hxy hrest =>
      simp only [List.dropWhile_cons]
      rw [← hp x _ hxy]
      by_cases hx : p x = true
      · simp only [if_pos hx]; exact ih hrest
      · simp only [if_neg hx]; exact List.Forall₂.cons hxy hrest

theorem splitNL_congr : ∀ {a b : List Char}, List.Forall₂ Rrel a b →
    List.Forall₂ (List.Forall₂ Rrel) (splitNL a) (splitNL b) := by
  intro a
  induction a with
  | nil => intro b h; cases h; exact List.Forall₂.cons List.Forall₂.nil List.Forall₂.nil
  | cons x xs ih =>
    intro b h
    cases h with
    | cons hxy hrest =>
      rename_i y ys
      simp only [splitNL]
      by_cases hx : x = '\n'
      · rw [if_pos hx, if_pos ((Rrel_nl hxy).mp hx)]
        exact List.Forall₂.cons List.Forall₂.nil (ih hrest)
      · rw [if_neg hx, if_neg (fun hy => hx ((Rrel_nl hxy).mpr hy))]
        have := ih hrest
        cases hs : splitNL xs with
        | nil =>
          cases hs2 : splitNL ys with
          | nil =>
            exact List.Forall₂.cons (List.Forall₂.cons hxy List.Forall₂.nil) List.Forall₂.nil
          | cons m ms => rw [hs, hs2] at this; cases this
        | cons l ls =>
          cases hs2 : splitNL ys with
          | nil => rw [hs, hs2] at this; cases this
          | cons m ms =>
            rw [hs, hs2] at this
            cases this with
            | cons hlm hlsms =>
              exact List.Forall₂.cons (List.Forall₂.cons hxy hlm) hlsms

theorem reverse_congr {a b : List Char} (h : List.Forall₂ Rrel a b) :
    List.Forall₂ Rrel a.reverse b.reverse :=
  List.forall₂_reverse_iff.mpr h

theorem pyStrip_congr {a b : List Char} (h : List.Forall₂ Rrel a b) :
    List.Forall₂ Rrel (pyStrip a) (pyStrip b) := by
  unfold pyStrip
  exact reverse_congr (dropWhile_congr (fun x y hxy => Rrel_isPySpace hxy)
    (reverse_congr (dropWhile_congr (fun x y hxy => Rrel_isPySpace hxy) h)))

theorem fenceLen_congr {a b : List Char} (h : List.Forall₂ Rrel a b) :
    fenceLen a = fenceLen b := by
  unfold fenceLen
  exact countTicks_congr (dropWhile_congr (fun x y hxy => Rrel_isPySpace hxy) h)

theorem openFence_congr {a b : List Char} (h : List.Forall₂ Rrel a b) :
    openFence a = openFence b := by
  unfold openFence
  rw [countTicks_congr (dropWhile_congr (fun x y hxy => Rrel_isPySpace hxy) h)]

theorem startsWithSeq_congr (pat : List Char) (hpat : pat.all specialFree = true) :
    ∀ {a b : List Char}, List.Forall₂ Rrel a b →
      startsWithSeq pat a = startsWithSeq pat b := by
  induction pat with
  | nil => intro a b h; rfl
  | cons p ps ih =>
    intro a b h
    cases h with
    | nil => rfl
    | @cons x y xs ys hxy hrest =>
      simp only [List.all_cons, Bool.and_eq_true] at hpat
      simp only [startsWithSeq]
      have h1 := Rrel_eq_iff hxy hpat.1
      have hdx : decide (p = x) = decide (p = y) := by
        rw [decide_eq_decide]
        constructor
        · intro he; exact (h1.mp he.symm).symm
        · intro he; exact (h1.mpr he.symm).symm
      rw [hdx, ih hpat.2 hrest]

theorem containsSeq_congr (pat : List Char) (hpat : pat.all specialFree = true) :
    ∀ {a b : List Char}, List.Forall₂ Rrel a b →
      containsSeq pat a = containsSeq pat b := by
  intro a
  induction a with
  | nil => intro b h; cases h; rfl
  | cons x xs ih =>
    intro b h
    cases h with
    | cons hxy hrest =>
      simp only [containsSeq]
      rw [startsWithSeq_congr pat hpat (List.Forall₂.cons hxy hrest), ih hrest]

theorem dropStar_congr {a b : List Char} (h : List.Forall₂ Rrel a b) :
    List.Forall₂ Rrel (dropStar a) (dropStar b) := by
  cases h with
  | nil => exact List.Forall₂.nil
  | @cons x y xs ys hxy hrest =>
    have hiff : (x = '*') ↔ (y = '*') := Rrel_eq_iff hxy (by decide)
    simp only [dropStar]
    by_cases hx : x = '*'
    · rw [if_pos hx, if_pos (hiff.mp hx)]
      exact hrest
    · rw [if_neg hx, if_neg (fun hy => hx (hiff.mpr hy))]
      exact List.Forall₂.cons hxy hrest

theorem avoidRegexMatch_congr {a b : List Char} (h : List.Forall₂ Rrel a b) :
    avoidRegexMatch a = avoidRegexMatch b := by
  unfold avoidRegexMatch
  have h2 : List.Forall₂ Rrel (dropStar (a.dropWhile isSpaceDash))
      (dropStar (b.dropWhile isSpaceDash)) :=
    dropStar_congr (dropWhile_congr (fun x y hxy => Rrel_isSpaceDash hxy) h)
  rw [startsWithSeq_congr "Avoid".toList (by decide) h2,
    startsWithSeq_congr ":".toList (by decide) (dropStar_congr (List.forall₂_drop 5 h2))]

theorem avoidLineMatch_congr {a b : List Char} (h : List.Forall₂ Rrel a b) :
    avoidLineMatch a = avoidLineMatch b := by
  unfold avoidLineMatch
  rw [avoidRegexMatch_congr h,
    containsSeq_congr avoidPat (by decide) (List.forall₂_take 20 h)]

theorem rfindNL_congr : ∀ {a b : List Char},
    List.Forall₂ Rrel a b → rfindNL a = rfindNL b := by
  intro a
  induction a with
  | nil => intro b h; cases h; rfl
  | cons x xs ih =>
    intro b h
    cases h with
    | @cons x y xs ys hxy hrest =>
      simp only [rfindNL, ih hrest]
      cases rfindNL ys with
      | some r => rfl
      | none =>
        by_cases hx : x = '\n'
        · rw [if_pos hx, if_pos ((Rrel_nl hxy).mp hx)]
        · rw [if_neg hx, if_neg (fun hy => hx ((Rrel_nl hxy).mpr hy))]

theorem findNLAux_congr : ∀ {a b : List Char} (j : Nat),
    List.Forall₂ Rrel a b → findNLAux j a = findNLAux j b := by
  intro a
  induction a with
  | nil => intro b j h; cases h; rfl
  | cons x xs ih =>
    intro b j h
    cases h with
    | @cons x y xs ys hxy hrest =>
      simp only [findNLAux]
      by_cases hx : x = '\n'
      · rw [if_pos hx, if_pos ((Rrel_nl hxy).mp hx)]
      · rw [if_neg hx, if_neg (fun hy => hx ((Rrel_nl hxy).mpr hy)), ih (j + 1) hrest]

theorem lineStartAt_congr {a b : List Char} (h : List.Forall₂ Rrel a b) (i : Nat) :
    lineStartAt a i = lineStartAt b i := by
  unfold lineStartAt
  rw [rfindNL_congr (List.forall₂_take i h)]

theorem lineEndAt_congr {a b : List Char} (h : List.Forall₂ Rrel a b) (i : Nat) :
    lineEndAt a i = lineEndAt b i := by
  unfold lineEndAt
  rw [findNLAux_congr i (List.forall₂_drop i h), h.length_eq]

theorem lineAt_congr {a b : List Char} (h : List.Forall₂ Rrel a b) (i : Nat) :
    List.Forall₂ Rrel (lineAt a i) (lineAt b i) := by
  unfold lineAt
  rw [lineStartAt_congr h i, lineEndAt_congr h i]
  exact List.forall₂_drop _ (List.forall₂_take _ h)

theorem avoidAt_congr {a b : List Char} (h : List.Forall₂ Rrel a b) (i : Nat) :
    avoidAt a i = avoidAt b i :=
  avoidLineMatch_congr (lineAt_congr h i)

theorem replicate_tick_specialFree (n : Nat) :
    (List.replicate n '`').all specialFree = true := by
  induction n with
  | zero => rfl
  | succ n ih => simp only [List.replicate, List.all_cons, ih, Bool.and_true]; decide

theorem closeFence_congr (n : Nat) {a b : List Char} (h : List.Forall₂ Rrel a b) :
    closeFence n a = closeFence n b := by
  unfold closeFence
  rw [startsWithSeq_congr (List.replicate n '`') (replicate_tick_specialFree n)
    (pyStrip_congr h), (pyStrip_congr h).length_eq]

theorem skipCloseF_congr (need : Nat) : ∀ (fuel pos : Nat) {a b : List Char},
    List.Forall₂ Rrel a b →
      (skipCloseF fuel need pos a = none ∧ skipCloseF fuel need pos b = none)
      ∨ ∃ p2 a2 b2, skipCloseF fuel need pos a = some (p2, a2)
          ∧ skipCloseF fuel need pos b = some (p2, b2) ∧ List.Forall₂ Rrel a2 b2 := by
  intro fuel
  induction fuel with
  | zero => intro pos a b h; exact Or.inl ⟨rfl, rfl⟩
  | succ fuel ih =>
    intro pos a b h
    cases h with
    | nil => exact Or.inl ⟨rfl, rfl⟩
    | @cons x y xs ys hxy hrest =>
      have hticks : countTicks xs = countTicks ys := countTicks_congr hrest
      by_cases hx : x = '`'
      · have hy : y = '`' := (Rrel_tick hxy).mp hx
        simp only [skipCloseF, if_pos hx, if_pos hy, ← hticks]
        by_cases hr : need ≤ countTicks xs + 1
        · rw [if_pos hr, if_pos hr]
          exact Or.inr ⟨pos + (countTicks xs + 1), _, _, rfl, rfl,
            List.forall₂_drop _ hrest⟩
        · rw [if_neg hr, if_neg hr]
          exact ih _ (List.forall₂_drop _ hrest)
      · have hy : ¬ (y = '`') := fun hy => hx ((Rrel_tick hxy).mpr hy)
        simp only [skipCloseF, if_neg hx, if_neg hy]
        exact ih _ hrest

theorem scanProseF_congr : ∀ (fuel i : Nat) {a b : List Char},
    List.Forall₂ Rrel a b →
      (scanProseF fuel i a).map Prod.fst = (scanProseF fuel i b).map Prod.fst := by
  intro fuel
  induction fuel with
  | zero => intro i a b h; rfl
  | succ fuel ih =>
    intro i a b h
    cases h with
    | nil => rfl
    | @cons x y xs ys hxy hrest =>
      have hticks : countTicks xs = countTicks ys := countTicks_congr hrest
      by_cases hx : x = '`'
      · have hy : y = '`' := (Rrel_tick hxy).mp hx
        simp only [scanProseF, if_pos hx, if_pos hy, ← hticks]
        have hdrop : List.Forall₂ Rrel (xs.drop (countTicks xs + 1 - 1))
            (ys.drop (countTicks xs + 1 - 1)) := List.forall₂_drop _ hrest
        have hlen : (xs.drop (countTicks xs + 1 - 1)).length
            = (ys.drop (countTicks xs + 1 - 1)).length := hdrop.length_eq
        unfold skipClose
        rw [← hlen]
        rcases skipCloseF_congr (countTicks xs + 1)
            ((xs.drop (countTicks xs + 1 - 1)).length + 1)
            (i + (countTicks xs + 1)) hdrop with ⟨hna, hnb⟩ | ⟨p2, a2, b2, ha, hb, hab⟩
        · rw [hna, hnb]
        · rw [ha, hb]
          exact ih p2 hab
      · have hy : ¬ (y = '`') := fun hy => hx ((Rrel_tick hxy).mpr hy)
        simp only [scanProseF, if_neg hx, if_neg hy, List.map_cons]
        rw [ih (i + 1) hrest]

theorem lineProseOffsets_congr {a b : List Char} (h : List.Forall₂ Rrel a b) :
    lineProseOffsets a = lineProseOffsets b := by
  unfold lineProseOffsets scanProse
  rw [h.length_eq]
  exact scanProseF_congr _ 0 h

theorem proseLines_congr : ∀ {As Bs : List (List Char)},
    List.Forall₂ (List.Forall₂ Rrel) As Bs → ∀ (pos : Nat) (st : Option Nat),
      proseLines As pos st = proseLines Bs pos st := by
  intro As
  induction As with
  | nil => intro Bs h pos st; cases h; rfl
  | cons L Ls ih =>
    intro Bs h pos st
    cases h with
    | @cons L M Ls Ms hLM hrest =>
      cases st with
      | none =>
        simp only [proseLines]
        rw [openFence_congr hLM, fenceLen_congr hLM, hLM.length_eq]
        by_cases ho : openFence M = true
        · rw [if_pos ho, if_pos ho, ih hrest]
        · rw [if_neg ho, if_neg ho, lineProseOffsets_congr hLM, ih hrest]
      | some n =>
        simp only [proseLines]
        rw [closeFence_congr n hLM, hLM.length_eq]
        by_cases hc : closeFence n M = true
        · rw [if_pos hc, if_pos hc, ih hrest]
        · rw [if_neg hc, if_neg hc, ih hrest]

theorem prose_offset_set_congr {a b : List Char} (h : List.Forall₂ Rrel a b) :
    prose_offset_set a = prose_offset_set b :=
  proseLines_congr (splitNL_congr h) 0 none

/-! ### Idempotence of the rewriter -/

theorem fixChar_fixed (pr av pr2 av2 : Nat → Bool) (skip : Bool) (k n1 n2 : Nat) (x : Char)
    (hpr : pr2 k = pr k) (hav : av2 k = av k) :
    fixChar pr2 av2 skip k n2 (fixChar pr av skip k n1 x) = fixChar pr av skip k n1 x := by
  by_cases hp : pr k = false
  · have hz : fixChar pr av skip k n1 x = x := by unfold fixChar; rw [if_pos hp]
    rw [hz]
    unfold fixChar
    rw [if_pos (hpr.trans hp)]
  · have hp2 : ¬ (pr2 k = false) := fun h => hp (hpr ▸ h)
    by_cases hx1 : x = STRAIGHT_DOUBLE
    · by_cases hex : (skip && av k) = true
      · have hz : fixChar pr av skip k n1 x = x := by
          unfold fixChar; rw [if_neg hp, if_pos hx1, if_pos hex]
        have hex2 : (skip && av2 k) = true := by rw [hav]; exact hex
        rw [hz]
        unfold fixChar
        rw [if_neg hp2, if_pos hx1, if_pos hex2]
      · have hz : fixChar pr av skip k n1 x = fancyFor n1 := by
          unfold fixChar; rw [if_neg hp, if_pos hx1, if_neg hex]
        have hzn1 : ¬ (fancyFor n1 = STRAIGHT_DOUBLE) := by
          unfold fancyFor; split_ifs <;> decide
        have hzn2 : ¬ (fancyFor n1 = STRAIGHT_APOSTROPHE) := by
          unfold fancyFor; split_ifs <;> decide
        rw [hz]
        unfold fixChar
        rw [if_neg hp2, if_neg hzn1, if_neg hzn2]
    · by_cases hx2 : x = STRAIGHT_APOSTROPHE
      · by_cases hex : (skip && av k) = true
        · have hz : fixChar pr av skip k n1 x = x := by
            unfold fixChar; rw [if_neg hp, if_neg hx1, if_pos hx2, if_pos hex]
          have hex2 : (skip && av2 k) = true := by rw [hav]; exact hex
          rw [hz]
          unfold fixChar
          rw [if_neg hp2, if_neg hx1, if_pos hx2, if_pos hex2]
        · have hz : fixChar pr av skip k n1 x = FANCY_APOSTROPHE := by
            unfold fixChar; rw [if_neg hp, if_neg hx1, if_pos hx2, if_neg hex]
          rw [hz]
          unfold fixChar
          rw [if_neg hp2, if_neg (show ¬ (FANCY_APOSTROPHE = STRAIGHT_DOUBLE) by decide),
            if_neg (show ¬ (FANCY_APOSTROPHE = STRAIGHT_APOSTROPHE) by decide)]
      · have hz : fixChar pr av skip k n1 x = x := by
          unfold fixChar; rw [if_neg hp, if_neg hx1, if_neg hx2]
        rw [hz]
        unfold fixChar
        rw [if_neg hp2, if_neg hx1, if_neg hx2]

theorem fix_prose_quotes_getElem? (content : List Char) (skip : Bool) (k : Nat) :
    (fix_prose_quotes content skip)[k]? =
      (content[k]?).map
        (fixChar (fun i => natMem i (prose_offset_set content)) (avoidAt content) skip k
          (replCnt (fun i => natMem i (prose_offset_set content)) (avoidAt content)
            skip 0 content k + 1)) := by
  unfold fix_prose_quotes
  rw [fixFrom_getElem?]
  simp only [Nat.zero_add]

/-- C1: the Quote Rewriter is idempotent: for every document and either
setting of the avoid-exemption flag, `fix_prose_quotes
(fix_prose_quotes content skip) skip = fix_prose_quotes content
skip`. -/
theorem fix_prose_quotes_idempotent (content : List Char) (skip : Bool) :
    fix_prose_quotes (fix_prose_quotes content skip) skip = fix_prose_quotes content skip := by
  have hR : List.Forall₂ Rrel content (fix_prose_quotes content skip) :=
    fixFrom_forall₂ _ _ _ content 0 0
  have hpr : prose_offset_set (fix_prose_quotes content skip) = prose_offset_set content :=
    (prose_offset_set_congr hR).symm
  have hav : ∀ i, avoidAt (fix_prose_quotes content skip) i = avoidAt content i :=
    fun i => (avoidAt_congr hR i).symm
  apply List.ext_getElem?
  intro k
  rw [fix_prose_quotes_getElem?]
  cases hk : (fix_prose_quotes content skip)[k]? with
  | none => rfl
  | some y =>
    simp only [Option.map_some', Option.some.injEq]
    have h1 := fix_prose_quotes_getElem? content skip k
    cases hc : content[k]? with
    | none => rw [hc] at h1; rw [h1] at hk; cases hk
    | some x =>
      rw [hc] at h1; rw [h1] at hk
      simp only [Option.map_some', Option.some.injEq] at hk
      rw [← hk]
      exact fixChar_fixed _ _ _ _ skip k _ _ x
        (by show natMem k (prose_offset_set (fix_prose_quotes content skip)) = _; rw [hpr])
        (hav k)


/-! ### Frame, exemption, alternation and shape of the rewriter -/

theorem count_nl_congr : ∀ {a b : List Char},
    List.Forall₂ Rrel a b → a.count '\n' = b.count '\n' := by
  intro a
  induction a with
  | nil => intro b h; cases h; rfl
  | cons x xs ih =>
    intro b h
    cases h with
    | @cons x y xs ys hxy hrest =>
      rw [List.count_cons, List.count_cons, ih hrest]
      by_cases hx : x = '\n'
      · rw [if_pos (beq_iff_eq.mpr hx), if_pos (beq_iff_eq.mpr ((Rrel_nl hxy).mp hx))]
      · rw [if_neg (fun hb => hx (beq_iff_eq.mp hb)),
          if_neg (fun hb => hx ((Rrel_nl hxy).mpr (beq_iff_eq.mp hb)))]

/-- C10: the rewriter preserves document shape: the output has the same
length as the input, a position holds a newline in the output exactly
when it does in the input, and the newline count (hence the line
count) is unchanged. -/
theorem fix_prose_quotes_shape (content : List Char) (skip : Bool) :
    (fix_prose_quotes content skip).length = content.length
    ∧ (∀ i : Nat, ((fix_prose_quotes content skip)[i]? = some '\n' ↔ content[i]? = some '\n'))
    ∧ (fix_prose_quotes content skip).count '\n' = content.count '\n' := by
  refine ⟨fixFrom_length _ _ _ content 0 0, fun i => ?_,
    (count_nl_congr (fixFrom_forall₂ _ _ _ content 0 0)).symm⟩
  rw [fix_prose_quotes_getElem?]
  cases hc : content[i]? with
  | none => simp
  | some x =>
    simp only [Option.map_some', Option.some.injEq]
    have hnl := Rrel_nl (Rrel_fixChar (fun j => natMem j (prose_offset_set content))
      (avoidAt content) skip i
      (replCnt (fun j => natMem j (prose_offset_set content)) (avoidAt content)
        skip 0 content i + 1) x)
    exact ⟨fun h => hnl.mpr h, fun h => hnl.mp h⟩

/-- C3: frame property of the rewriter: at every position that is not a
prose-classified straight double quote or straight apostrophe — in
particular at every position outside `prose_offset_set`, i.e. every
INLINE_CODE or FENCED_CODE position, and at every newline — the output
agrees with the input character for character. -/
theorem fix_prose_quotes_frame (content : List Char) (skip : Bool) (k : Nat)
    (h : natMem k (prose_offset_set content) = false
      ∨ ∀ c : Char, content[k]? = some c → c ≠ STRAIGHT_DOUBLE ∧ c ≠ STRAIGHT_APOSTROPHE) :
    (fix_prose_quotes content skip)[k]? = content[k]? := by
  rw [fix_prose_quotes_getElem?]
  cases hc : content[k]? with
  | none => rfl
  | some x =>
    simp only [Option.map_some', Option.some.injEq]
    unfold fixChar
    by_cases hp : natMem k (prose_offset_set content) = false
    · rw [if_pos hp]
    · rcases h with h | h
      · exact absurd h hp
      · obtain ⟨h1, h2⟩ := h x hc
        rw [if_neg hp, if_neg h1, if_neg h2]

/-- C4: avoid-line exemption: with the flag enabled, every position
whose line matches the `Avoid:` pattern is left unchanged; on the
concrete scenario line the flag leaves the straight quotes untouched,
while without the flag they become fancy glyphs. -/
theorem fix_prose_quotes_avoid (content : List Char) :
    (∀ i : Nat, avoidRegexMatch (lineAt content i) = true →
        (fix_prose_quotes content true)[i]? = content[i]?)
    ∧ fix_prose_quotes "- Avoid: using \"foo\" here".toList true
        = "- Avoid: using \"foo\" here".toList
    ∧ fix_prose_quotes "- Avoid: using \"foo\" here".toList false
        = "- Avoid: using “foo” here".toList := by
  refine ⟨fun i hre => ?_, by decide, by decide⟩
  have hav : avoidAt content i = true := by
    unfold avoidAt avoidLineMatch
    rw [hre, Bool.true_or]
  rw [fix_prose_quotes_getElem?]
  cases hc : content[i]? with
  | none => rfl
  | some x =>
    simp only [Option.map_some', Option.some.injEq]
    unfold fixChar
    have hex : (true && avoidAt content i) = true := by rw [hav]; rfl
    by_cases hp : natMem i (prose_offset_set content) = false
    · rw [if_pos hp]
    · by_cases hx1 : x = STRAIGHT_DOUBLE
      · rw [if_neg hp, if_pos hx1, if_pos hex]
      · by_cases hx2 : x = STRAIGHT_APOSTROPHE
        · rw [if_neg hp, if_neg hx1, if_pos hx2, if_pos hex]
        · rw [if_neg hp, if_neg hx1, if_neg hx2]

theorem replacedDoubleOffsets_getElem? (pr av : Nat → Bool) (skip : Bool) :
    ∀ (rest : List Char) (i n off : Nat),
      (replacedDoubleOffsets pr av skip i rest)[n]? = some off →
      ∃ k : Nat, off = i + k ∧ rest[k]? = some STRAIGHT_DOUBLE ∧ pr (i + k) = true
        ∧ (skip && av (i + k)) = false ∧ replCnt pr av skip i rest k = n := by
  intro rest
  induction rest with
  | nil => intro i n off h; simp [replacedDoubleOffsets] at h
  | cons c cs ih =>
    intro i n off h
    simp only [replacedDoubleOffsets] at h
    by_cases hP : (pr i && decide (c = STRAIGHT_DOUBLE) && !(skip && av i)) = true
    · rw [if_pos hP] at h
      have hparts := hP
      simp only [Bool.and_eq_true, Bool.not_eq_true', decide_eq_true_eq] at hparts
      obtain ⟨⟨hpi, hcd⟩, hskip⟩ := hparts
      cases n with
      | zero =>
        simp only [List.getElem?_cons_zero, Option.some.injEq] at h
        refine ⟨0, by omega, ?_, ?_, ?_, rfl⟩
        · rw [List.getElem?_cons_zero, hcd]
        · rw [Nat.add_zero]; exact hpi
        · rw [Nat.add_zero]; exact hskip
      | succ n =>
        rw [List.getElem?_cons_succ] at h
        obtain ⟨k, hoff, hck, hpk, hsk, hrc⟩ := ih (i + 1) n off h
        refine ⟨k + 1, by omega, by rw [List.getElem?_cons_succ]; exact hck,
          by rw [show i + (k + 1) = i + 1 + k by omega]; exact hpk,
          by rw [show i + (k + 1) = i + 1 + k by omega]; exact hsk, ?_⟩
        simp only [replCnt, if_pos hP]
        omega
    · rw [if_neg hP] at h
      obtain ⟨k, hoff, hck, hpk, hsk, hrc⟩ := ih (i + 1) n off h
      refine ⟨k + 1, by omega, by rw [List.getElem?_cons_succ]; exact hck,
        by rw [show i + (k + 1) = i + 1 + k by omega]; exact hpk,
        by rw [show i + (k + 1) = i + 1 + k by omega]; exact hsk, ?_⟩
      simp only [replCnt, if_neg hP]
      omega

/-- C2: alternation of the rewriter: the `n`-th double quote it actually
replaces (`n` is the 0-based index into `replaced_doubles`, so the
1-based occurrence number is `n + 1`) becomes the fancy open glyph when
`n + 1` is odd and the fancy close glyph when `n + 1` is even, and every
replaced prose straight apostrophe becomes the fancy apostrophe with no
alternation; the six-quote prose scenario rewrites to open, close,
open, close, open, close. -/
theorem fix_prose_quotes_alternation (content : List Char) (skip : Bool) :
    (∀ n off : Nat, (replaced_doubles content skip)[n]? = some off →
        (fix_prose_quotes content skip)[off]? =
          some (if (n + 1) % 2 = 0 then FANCY_CLOSE_DOUBLE else FANCY_OPEN_DOUBLE))
    ∧ (∀ off : Nat, content[off]? = some STRAIGHT_APOSTROPHE →
        natMem off (prose_offset_set content) = true →
        (skip && avoidAt content off) = false →
        (fix_prose_quotes content skip)[off]? = some FANCY_APOSTROPHE)
    ∧ fix_prose_quotes "say \"a\" \"b\" \"c\"".toList false
        = "say “a” “b” “c”".toList := by
  refine ⟨fun n off h => ?_, fun off hc hp hs => ?_, by decide⟩
  · obtain ⟨k, hoff, hck, hpk, hsk, hrc⟩ :=
      replacedDoubleOffsets_getElem? _ _ skip content 0 n off h
    have hoffk : off = k := by omega
    have hck2 : content[off]? = some STRAIGHT_DOUBLE := by rw [hoffk]; exact hck
    have hpk2 : natMem off (prose_offset_set content) = true := by
      rw [hoffk]; simpa using hpk
    have hsk2 : (skip && avoidAt content off) = false := by
      rw [hoffk]; simpa using hsk
    rw [fix_prose_quotes_getElem?, hck2]
    simp only [Option.map_some', Option.some.injEq]
    unfold fixChar
    rw [if_neg (fun h2 => absurd (hpk2.symm.trans h2) (by decide)),
      if_pos rfl,
      if_neg (fun h2 => absurd (hsk2.symm.trans h2) (by decide))]
    rw [hoffk, hrc]
    rfl
  · rw [fix_prose_quotes_getElem?, hc]
    simp only [Option.map_some', Option.some.injEq]
    unfold fixChar
    rw [if_neg (fun h2 => absurd (hp.symm.trans h2) (by decide)),
      if_neg (by decide), if_pos rfl,
      if_neg (fun h2 => absurd (hs.symm.trans h2) (by decide))]


/-! ### Unterminated inline spans -/

theorem countTicks_le_length : ∀ (l : List Char), countTicks l ≤ l.length := by
  intro l
  induction l with
  | nil => exact Nat.le_refl 0
  | cons c rest ih =>
    simp only [countTicks, List.length_cons]
    split_ifs <;> omega

theorem countTicks_head_tick {s : List Char} (h : s.head? = some '`') :
    1 ≤ countTicks s := by
  cases s with
  | nil => cases h
  | cons c rest =>
    simp only [List.head?_cons, Option.some.injEq] at h
    simp only [countTicks, if_pos h]
    omega

theorem skipCloseF_none (need : Nat) : ∀ (fuel pos : Nat) (s : List Char),
    (∀ k : Nat, countTicks (s.drop k) < need) →
      skipCloseF fuel need pos s = none := by
  intro fuel
  induction fuel with
  | zero => intro pos s h; rfl
  | succ fuel ih =>
    intro pos s h
    cases s with
    | nil => rfl
    | cons c rest =>
      by_cases hc : c = '`'
      · have h0 : countTicks (c :: rest) < need := by
          have := h 0
          simpa using this
        have hr : countTicks (c :: rest) = countTicks rest + 1 := by
          simp only [countTicks, if_pos hc]
        have hnle : ¬ (need ≤ countTicks rest + 1) := by omega
        simp only [skipCloseF, if_pos hc, if_neg hnle]
        apply ih
        intro k
        have hdd : (rest.drop (countTicks rest + 1 - 1)).drop k
            = (c :: rest).drop (countTicks rest + 1 + k) := by
          rw [List.drop_drop,
            show countTicks rest + 1 - 1 + k = countTicks rest + k by omega,
            show countTicks rest + 1 + k = (countTicks rest + k) + 1 by omega,
            List.drop_succ_cons]
        rw [hdd]
        exact h (countTicks rest + 1 + k)
      · simp only [skipCloseF, if_neg hc]
        apply ih
        intro k
        have : (c :: rest).drop (k + 1) = rest.drop k := List.drop_succ_cons
        rw [← this]
        exact h (k + 1)

theorem scanProseF_swallow : ∀ (fuel i : Nat) (c : Char) (rest : List Char),
    c = '`' →
    (∀ m : Nat, countTicks (c :: rest) ≤ m →
      countTicks ((c :: rest).drop m) < countTicks (c :: rest)) →
    scanProseF fuel i (c :: rest) = [] := by
  intro fuel i c rest hc h
  cases fuel with
  | zero => rfl
  | succ fuel =>
    have hr : countTicks (c :: rest) = countTicks rest + 1 := by
      simp only [countTicks, if_pos hc]
    have hnone : skipClose (countTicks rest + 1) (i + (countTicks rest + 1))
        (rest.drop (countTicks rest + 1 - 1)) = none := by
      apply skipCloseF_none
      intro k
      have hdd : (rest.drop (countTicks rest + 1 - 1)).drop k
          = (c :: rest).drop (countTicks rest + 1 + k) := by
        rw [List.drop_drop,
          show countTicks rest + 1 - 1 + k = countTicks rest + k by omega,
          show countTicks rest + 1 + k = (countTicks rest + k) + 1 by omega,
          List.drop_succ_cons]
      rw [hdd]
      have h2 := h (countTicks rest + 1 + k) (by rw [hr]; omega)
      rw [hr] at h2
      exact h2
    simp only [scanProseF, if_pos hc, hnone]

/-- Common form of the swallow property: if the character at offset `i`
opens a backtick run and no backtick run of at least its length starts
anywhere after it, the scanning loop started at that offset yields
nothing at all. -/
theorem scanProse_swallow (p : List Char) (i : Nat)
    (htick : (p.drop i).head? = some '`')
    (hnoclose : ∀ m : Nat, m ≤ p.length → i + countTicks (p.drop i) ≤ m →
      countTicks (p.drop m) < countTicks (p.drop i)) :
    scanProse i (p.drop i) = [] := by
  have hpos : 1 ≤ countTicks (p.drop i) := countTicks_head_tick htick
  have hno : ∀ m : Nat, i + countTicks (p.drop i) ≤ m →
      countTicks (p.drop m) < countTicks (p.drop i) := by
    intro m hm
    by_cases hml : m ≤ p.length
    · exact hnoclose m hml hm
    · rw [List.drop_eq_nil_of_le (by omega)]
      simpa using hpos
  cases hd : p.drop i with
  | nil => rw [hd] at htick; cases htick
  | cons c rest =>
    have hc : c = '`' := by
      rw [hd] at htick
      simpa using htick
    unfold scanProse
    apply scanProseF_swallow _ _ _ _ hc
    intro m hm
    have hdd : (c :: rest).drop m = p.drop (i + m) := by
      rw [← hd, List.drop_drop]
    rw [hdd, ← hd]
    rw [← hd] at hm
    exact hno (i + m) (by omega)

theorem skipCloseF_pos : ∀ (fuel need pos : Nat) (s : List Char) (pos2 : Nat)
    (s2 : List Char), skipCloseF fuel need pos s = some (pos2, s2) →
      pos ≤ pos2 ∧ pos2 + s2.length = pos + s.length := by
  intro fuel
  induction fuel with
  | zero => intro need pos s pos2 s2 h; cases h
  | succ fuel ih =>
    intro need pos s pos2 s2 h
    cases s with
    | nil => cases h
    | cons c rest =>
      by_cases hc : c = '`'
      · have hle : countTicks rest ≤ rest.length := countTicks_le_length rest
        by_cases hr : need ≤ countTicks rest + 1
        · simp only [skipCloseF, if_pos hc, if_pos hr, Option.some.injEq,
            Prod.mk.injEq] at h
          obtain ⟨h1, h2⟩ := h
          subst h1; subst h2
          constructor
          · omega
          · rw [List.length_drop]
            simp only [List.length_cons]
            omega
        · simp only [skipCloseF, if_pos hc, if_neg hr] at h
          obtain ⟨ha, hb⟩ := ih need (pos + (countTicks rest + 1))
            (rest.drop (countTicks rest + 1 - 1)) pos2 s2 h
          rw [List.length_drop] at hb
          simp only [List.length_cons]
          omega
      · simp only [skipCloseF, if_neg hc] at h
        obtain ⟨ha, hb⟩ := ih need (pos + 1) rest pos2 s2 h
        simp only [List.length_cons]
        omega

theorem scanProseF_bound : ∀ (fuel i : Nat) (s : List Char) (q : Nat × Char),
    q ∈ scanProseF fuel i s → i ≤ q.1 ∧ q.1 < i + s.length := by
  intro fuel
  induction fuel with
  | zero => intro i s q h; cases h
  | succ fuel ih =>
    intro i s q h
    cases s with
    | nil => cases h
    | cons c rest =>
      by_cases hc : c = '`'
      · simp only [scanProseF, if_pos hc] at h
        cases hsk : skipClose (countTicks rest + 1) (i + (countTicks rest + 1))
            (rest.drop (countTicks rest + 1 - 1)) with
        | none => rw [hsk] at h; cases h
        | some pr2 =>
          rw [hsk] at h
          obtain ⟨i2, rest2⟩ := pr2
          obtain ⟨hq1, hq2⟩ := ih i2 rest2 q h
          obtain ⟨ha, hb⟩ := skipCloseF_pos _ _ _ _ _ _ hsk
          rw [List.length_drop] at hb
          have hle : countTicks rest ≤ rest.length := countTicks_le_length rest
          simp only [List.length_cons]
          omega
      · simp only [scanProseF, if_neg hc, List.mem_cons] at h
        rcases h with h | h
        · subst h
          simp only [List.length_cons]
          omega
        · obtain ⟨hq1, hq2⟩ := ih (i + 1) rest q h
          simp only [List.length_cons]
          omega

theorem scanProse_bound (j : Nat) (line : List Char) (q : Nat × Char)
    (h : q ∈ scanProse j line) : j ≤ q.1 ∧ q.1 < j + line.length :=
  scanProseF_bound _ j line q h


/-- C5: an unterminated inline-code opening backtick run in the
straight-in-prose scan swallows the rest of the text, across line
boundaries: when the character at offset `i` of the prose view is a
backtick and no backtick run of at least the opening run's length
starts at any later offset, the scan continued from offset `i` yields
nothing, so the straight-quote filter reports no STRAIGHT_IN_PROSE
violation at or after the opening run; `iter_prose_offsets` is this
scan started at offset 0 and `find_straight_quotes_in_prose` is its
quote filter. -/
theorem iter_prose_offsets_unterminated_swallow (p : List Char) (i : Nat)
    (htick : (p.drop i).head? = some '`')
    (hnoclose : ∀ m : Nat, m ≤ p.length → i + countTicks (p.drop i) ≤ m →
      countTicks (p.drop m) < countTicks (p.drop i)) :
    scanProse i (p.drop i) = []
    ∧ (scanProse i (p.drop i)).filter
        (fun x => x.2 = STRAIGHT_DOUBLE || x.2 = STRAIGHT_APOSTROPHE) = []
    ∧ iter_prose_offsets p = scanProse 0 p
    ∧ find_straight_quotes_in_prose p = (iter_prose_offsets p).filter
        (fun x => x.2 = STRAIGHT_DOUBLE || x.2 = STRAIGHT_APOSTROPHE) := by
  have h := scanProse_swallow p i htick hnoclose
  exact ⟨h, by rw [h]; rfl, rfl, rfl⟩

/-- Witness for the unterminated-span swallow: in `a`b` followed by a
newline and a straight quote on the next line, the scan continued from
the unmatched backtick at offset 1 yields nothing, although a straight
double quote follows on a later line. -/
theorem iter_prose_offsets_unterminated_swallow_witness :
    scanProse 1 (("a`b\n\"c".toList).drop 1) = [] :=
  (iter_prose_offsets_unterminated_swallow "a`b\n\"c".toList 1 (by decide)
    (by decide)).1

/-- C6 counterexample: in the single-line document consisting of a
backtick followed by a straight double quote, the quote after the
unmatched opening backtick is NOT classified as prose and is NOT
rewritten by `fix_prose_quotes` — the claim's reversion to prose
(which would make it the first replaced quote, i.e. a fancy open
glyph) does not happen. -/
theorem prose_offset_set_unterminated_cex :
    prose_offset_set ['`', '"'] = []
    ∧ fix_prose_quotes ['`', '"'] false = ['`', '"']
    ∧ ¬ (fix_prose_quotes ['`', '"'] false = ['`', FANCY_OPEN_DOUBLE]) := by
  decide

/-- C6 (amended): in `prose_offset_set` the inline-span handling is
confined to one line: an unterminated opening backtick run causes the
remainder of that line to be skipped (treated as code, not reverted to
prose), the scan of a line yields only offsets inside that line, and a
non-fence line's prose offsets are computed independently of the lines
that follow, so classification never consumes past a line boundary. -/
theorem prose_offset_set_line_confinement :
    (∀ (line : List Char) (i : Nat), (line.drop i).head? = some '`' →
      (∀ m : Nat, m ≤ line.length → i + countTicks (line.drop i) ≤ m →
        countTicks (line.drop m) < countTicks (line.drop i)) →
      scanProse i (line.drop i) = [])
    ∧ (∀ (j : Nat) (line : List Char) (q : Nat × Char), q ∈ scanProse j line →
        j ≤ q.1 ∧ q.1 < j + line.length)
    ∧ (∀ (L : List Char) (Ls : List (List Char)) (pos : Nat), openFence L = false →
        proseLines (L :: Ls) pos none =
          (lineProseOffsets L).map (fun j => pos + j)
            ++ proseLines Ls (pos + L.length + 1) none) := by
  refine ⟨fun line i h1 h2 => scanProse_swallow line i h1 h2,
    fun j line q h => scanProse_bound j line q h,
    fun L Ls pos hF => ?_⟩
  simp only [proseLines]
  rw [if_neg (fun h2 => absurd (hF.symm.trans h2) (by decide))]

/-- Witness for the line-confinement theorem: on the line made of a
backtick and a straight double quote, scanning from the unmatched
backtick at offset 0 yields nothing (the quote is skipped as code). -/
theorem prose_offset_set_line_confinement_witness :
    scanProse 0 ((['`', '"']).drop 0) = [] :=
  prose_offset_set_line_confinement.1 ['`', '"'] 0 (by decide) (by decide)


/-! ### Line/column convention of the violation reports -/

/-- The located STRAIGHT_IN_PROSE report of `audit_file`
(`[(line_and_column(prose, off), char) for off, char in straight]`). -/
def straight_with_loc (content : List Char) : List ((Nat × Nat) × Char) :=
  (find_straight_quotes_in_prose (get_prose_content content)).map
    (fun oc => (line_and_column (get_prose_content content) oc.1, oc.2))

/-- The located FANCY_IN_CODE report of `audit_file`
(`[(line_and_column(content, off), c) for off, c in fancy_in_code]`). -/
def fancy_with_loc (content : List Char) : List ((Nat × Nat) × Char) :=
  (find_fancy_in_code content).map
    (fun oc => (line_and_column content oc.1, oc.2))

theorem rfindNL_lt_length : ∀ (l : List Char) (r : Nat), rfindNL l = some r → r < l.length := by
  intro l
  induction l with
  | nil => intro r h; cases h
  | cons c rest ih =>
    intro r h
    simp only [rfindNL] at h
    cases hr : rfindNL rest with
    | some r0 =>
      rw [hr] at h
      simp only [Option.some.injEq] at h
      have := ih r0 hr
      simp only [List.length_cons]
      omega
    | none =>
      rw [hr] at h
      by_cases hc : c = '\n'
      · rw [if_pos hc] at h
        simp only [Option.some.injEq] at h
        simp only [List.length_cons]
        omega
      · rw [if_neg hc] at h
        cases h

/-- C8: both violation reports locate a character through the single
function `line_and_column`, and that function realizes the uniform
1-based convention: the line is 1 plus the number of newlines before
the offset, and the column is 1 plus the zero-based offset of the
character within its line (the line start being the position after the
last preceding newline) — so the two scan paths share one convention
with no off-by-one divergence. -/
theorem line_and_column_convention (content : List Char) :
    straight_with_loc content
      = (find_straight_quotes_in_prose (get_prose_content content)).map
          (fun oc => (line_and_column (get_prose_content content) oc.1, oc.2))
    ∧ fancy_with_loc content
      = (find_fancy_in_code content).map
          (fun oc => (line_and_column content oc.1, oc.2))
    ∧ ∀ (s : List Char) (off : Nat),
        line_and_column s off
          = ((s.take off).count '\n' + 1, off - lineStartAt s off + 1)
        ∧ lineStartAt s off ≤ off := by
  refine ⟨rfl, rfl, fun s off => ?_⟩
  cases hr : rfindNL (s.take off) with
  | none =>
    simp only [line_and_column, lineStartAt, hr]
    constructor
    · rw [show off - 0 + 1 = off + 1 by omega]
    · omega
  | some r =>
    have hlt : r < (s.take off).length := rfindNL_lt_length _ r hr
    have hle : r + 1 ≤ off := by
      have := List.length_take_le off s
      omega
    simp only [line_and_column, lineStartAt, hr]
    constructor
    · rw [show off - (r + 1) + 1 = off - r by omega]
    · omega


/-! ### Assembler grouping and ordering -/

theorem groupFiles_cons_ignored (f : List Char × List Char)
    (files : List (List Char × List Char))
    (h : validRuleFile f.1 = false ∨ (stemOf f.1).contains '-' = false) :
    ∀ pfx : List Char, groupFiles (f :: files) pfx = groupFiles files pfx := by
  intro pfx
  unfold groupFiles
  rw [List.filter_cons_of_neg]
  intro hc
  have h1 : validRuleFile f.1 = true ∧ (stemOf f.1).contains '-' = true := by
    simp only [Bool.and_eq_true] at hc
    exact ⟨hc.1.1, hc.1.2⟩
  rcases h with h | h
  · rw [h] at h1; cases h1.1
  · rw [h] at h1; cases h1.2

theorem buildLines_cons_ignored (f : List Char × List Char)
    (files : List (List Char × List Char))
    (h : validRuleFile f.1 = false ∨ (stemOf f.1).contains '-' = false) :
    buildLines (f :: files) = buildLines files := by
  have hg := groupFiles_cons_ignored f files h
  simp only [buildLines, hg]

/-- The three-fragment scenario of the grouping claim, listed out of
order to exhibit the per-group sort. -/
def exampleRuleFiles : List (List Char × List Char) :=
  [("bundle-02.md".toList, "## Code Split\nUse dynamic import.".toList),
   ("client-01.md".toList, "## Use SWR\nFetch with SWR.".toList),
   ("bundle-01.md".toList, "## Lazy Load\nUse React.lazy.".toList)]

/-- C7: assembler grouping and ordering: files that are not `.md`, start
with an underscore or have no dash in their stem are ignored entirely
(dropping such a file leaves the whole output unchanged); taxonomy
entries with an empty group contribute no table-of-contents block and
no body section; and on the bundle/client scenario the table of
contents lists section 1 with sub-entries 1.1 and 1.2 (sorted by file
name) and section 2 with 2.1, in that order, with no entry for the
fragment-less rerender/rendering/advanced sections. -/
theorem build_agents_grouping :
    (∀ (f : List Char × List Char) (files : List (List Char × List Char)),
        validRuleFile f.1 = false ∨ (stemOf f.1).contains '-' = false →
        buildLines (f :: files) = buildLines files)
    ∧ (∀ (secNum : Nat) (title impact : List Char),
        tocSection [] secNum title impact = [] ∧ bodySection [] secNum title = [])
    ∧ ((buildLines exampleRuleFiles).drop 22).take 9 =
        ["1. [Bundle Size Optimization](#1-bundle-size-optimization) — **CRITICAL**".toList,
         "   - 1.1 Lazy Load".toList,
         "   - 1.2 Code Split".toList,
         [],
         "2. [Client-Side Data Fetching](#2-client-side-data-fetching) — **MEDIUM-HIGH**".toList,
         "   - 2.1 Use SWR".toList,
         [],
         "---".toList,
         []] := by
  refine ⟨fun f files h => buildLines_cons_ignored f files h,
    fun secNum title impact => ⟨rfl, rfl⟩, by decide⟩

/-- Witness for the ignore rule: adding an underscore-prefixed template
file to the scenario leaves the assembled document unchanged. -/
theorem build_agents_grouping_witness :
    buildLines (("_template.md".toList, "## T\nx".toList) :: exampleRuleFiles)
      = buildLines exampleRuleFiles :=
  build_agents_grouping.1 ("_template.md".toList, "## T\nx".toList) exampleRuleFiles
    (Or.inl (by decide))

/-! ### Version-bump failure behavior -/

theorem updateEntries_not_found (nm nv : List Char) :
    ∀ (l : List MarketEntry),
      ((updateEntries nm nv l).2 = false ↔ ∀ e ∈ l, ¬ (e.name = some nm)) := by
  intro l
  induction l with
  | nil => simp [updateEntries]
  | cons e es ih =>
    by_cases he : e.name = some nm
    · simp only [updateEntries, if_pos he]
      constructor
      · intro h; cases h
      · intro h
        exact absurd he (h e (List.mem_cons_self e es))
    · simp only [updateEntries, if_neg he]
      constructor
      · intro h e2 he2
        rcases List.mem_cons.mp he2 with rfl | he2
        · exact he
        · exact (ih.mp h) e2 he2
      · intro h
        exact ih.mpr (fun e2 he2 => h e2 (List.mem_cons_of_mem e he2))

/-- C9 counterexample: with both manifest files present and a registry
whose only entry has a different name, `bump_main` prints the warning
and exits with status 0 — not with a non-zero status as the claim
requires for an absent identifier. -/
theorem bump_missing_entry_cex :
    (bump_main (some ⟨some "1.0.0".toList⟩)
        (some ⟨[⟨some "other".toList, some "1.0.0".toList⟩]⟩)
        "ghost".toList "2.0.0".toList).exitCode = 0
    ∧ (bump_main (some ⟨some "1.0.0".toList⟩)
        (some ⟨[⟨some "other".toList, some "1.0.0".toList⟩]⟩)
        "ghost".toList "2.0.0".toList).warnedMissingEntry = true := by
  constructor <;> rfl

/-- C9 (amended): the utility exits non-zero with a `Not found`
diagnostic when either JSON manifest is missing; when both are present
it always exits 0, and an identifier absent from the registry's
plugins array produces only the stderr warning (exactly when no entry
matches), not a failure. -/
theorem bump_main_failure_behavior (pj : PluginManifest) (mp : Marketplace)
    (nm nv : List Char) :
    ((bump_main none (some mp) nm nv).exitCode = 1
      ∧ (bump_main none (some mp) nm nv).notFoundMsg = true)
    ∧ ((bump_main none none nm nv).exitCode = 1
      ∧ (bump_main none none nm nv).notFoundMsg = true)
    ∧ ((bump_main (some pj) none nm nv).exitCode = 1
      ∧ (bump_main (some pj) none nm nv).notFoundMsg = true)
    ∧ ((bump_main (some pj) (some mp) nm nv).exitCode = 0
      ∧ ((bump_main (some pj) (some mp) nm nv).warnedMissingEntry = true
          ↔ ∀ e ∈ mp.plugins, ¬ (e.name = some nm))) := by
  refine ⟨⟨rfl, rfl⟩, ⟨rfl, rfl⟩, ⟨rfl, rfl⟩, rfl, ?_⟩
  show (!(updateEntries nm nv mp.plugins).2) = true ↔ _
  rw [Bool.not_eq_true']
  exact updateEntries_not_found nm nv mp.plugins


/-- Witness for the alternation theorem: in `say "a" "b"` the first
replaced double quote (offset 4) becomes the open glyph and the second
(offset 6) the close glyph, and a prose apostrophe becomes the fancy
apostrophe. -/
theorem fix_prose_quotes_alternation_witness :
    (fix_prose_quotes "say \"a\" \"b\"".toList false)[4]? = some FANCY_OPEN_DOUBLE
    ∧ (fix_prose_quotes "say \"a\" \"b\"".toList false)[6]? = some FANCY_CLOSE_DOUBLE
    ∧ (fix_prose_quotes ['i', 't', STRAIGHT_APOSTROPHE, 's'] false)[2]?
        = some FANCY_APOSTROPHE :=
  ⟨(fix_prose_quotes_alternation "say \"a\" \"b\"".toList false).1 0 4 (by decide),
   (fix_prose_quotes_alternation "say \"a\" \"b\"".toList false).1 1 6 (by decide),
   (fix_prose_quotes_alternation ['i', 't', STRAIGHT_APOSTROPHE, 's'] false).2.1 2
     (by decide) (by decide) (by decide)⟩

/-- Witness for the frame theorem: the straight quote inside the inline
code span of `say `"x"` ok` (offset 5) is not prose and is copied
verbatim by the rewriter. -/
theorem fix_prose_quotes_frame_witness :
    (fix_prose_quotes "say `\"x\"` ok".toList false)[5]?
      = ("say `\"x\"` ok".toList)[5]? :=
  fix_prose_quotes_frame "say `\"x\"` ok".toList false 5 (Or.inl (by decide))

/-- Witness for the avoid-exemption theorem: with the flag on, the first
straight quote of the scenario line (offset 15) is left unchanged. -/
theorem fix_prose_quotes_avoid_witness :
    (fix_prose_quotes "- Avoid: using \"foo\" here".toList true)[15]?
      = ("- Avoid: using \"foo\" here".toList)[15]? :=
  (fix_prose_quotes_avoid "- Avoid: using \"foo\" here".toList).1 15 (by decide)


/-- Witness instantiating the idempotence theorem on a concrete
document. -/
theorem fix_prose_quotes_idempotent_witness :
    fix_prose_quotes (fix_prose_quotes "say \"a\" and \"b\"".toList false) false
      = fix_prose_quotes "say \"a\" and \"b\"".toList false :=
  fix_prose_quotes_idempotent "say \"a\" and \"b\"".toList false

/-- Witness instantiating the shape theorem on a concrete document. -/
theorem fix_prose_quotes_shape_witness :
    (fix_prose_quotes "ab\n\"c\"".toList false).length = ("ab\n\"c\"".toList).length :=
  (fix_prose_quotes_shape "ab\n\"c\"".toList false).1

/-- Witness instantiating the line/column convention on a concrete
offset: offset 4 of `ab`, newline, `cd` is line 2, column 2. -/
theorem line_and_column_convention_witness :
    line_and_column "ab\ncd".toList 4 = (2, 2) := by
  have h := (line_and_column_convention "ab\ncd".toList).2.2 "ab\ncd".toList 4
  rw [h.1]
  decide

/-- Witness instantiating the bump failure-behavior theorem: a missing
plugin manifest exits 1, and present manifests exit 0. -/
theorem bump_main_failure_behavior_witness :
    (bump_main none (some ⟨[]⟩) "x".toList "2.0.0".toList).exitCode = 1
    ∧ (bump_main (some ⟨some "1.0.0".toList⟩) (some ⟨[]⟩)
        "x".toList "2.0.0".toList).exitCode = 0 :=
  ⟨(bump_main_failure_behavior ⟨some "1.0.0".toList⟩ ⟨[]⟩ "x".toList "2.0.0".toList).1.1,
   (bump_main_failure_behavior ⟨some "1.0.0".toList⟩ ⟨[]⟩ "x".toList "2.0.0".toList).2.2.2.1⟩

end Beefskills
